import Mathlib

/-!
Verification of the apoc.token fungible-token ledger.

The data structures (account, currency_stats, primary keys), the static
query helpers (get_supply, get_balance) and the custom apply dispatcher
are translated directly from src/contracts/include/apoc.token.hpp.
The bodies of the six ledger actions (create, issue, retire, transfer,
open, close) and of sub_balance / add_balance are declared in that header
but their definitions are not part of the repository snapshot; those are
modelled from the specification, as marked on each definition.
-/

namespace ApocToken

/-- A symbol is a currency code together with a decimal precision.
In the source this is the eosio symbol (code + precision packed in a
uint64); we keep the two components explicit. -/
structure symbol where
  code : Nat
  precision : Nat
deriving DecidableEq

/-- An asset pairs a signed amount with its symbol, as in eosio asset. -/
structure asset where
  amount : Int
  symbol : symbol
deriving DecidableEq

/-- Upper bound on valid amounts: 2^62 - 1 (written as a literal). -/
def maxAmount : Int := 4611686018427387903

/-- Balance-table row, from the source struct account. -/
structure account where
  balance : asset
deriving DecidableEq

/-- From the source: account primary key is balance.symbol.code().raw(). -/
def account.primary_key (a : account) : Nat := a.balance.symbol.code

/-- Supply-table row, from the source struct currency_stats. -/
structure currency_stats where
  supply : asset
  max_supply : asset
  issuer : Nat
deriving DecidableEq

/-- From the source: currency_stats primary key is supply.symbol.code().raw(). -/
def currency_stats.primary_key (st : currency_stats) : Nat := st.supply.symbol.code

/-- Error taxonomy of the specification. -/
inductive Err where
  | InvalidSymbol
  | InvalidAmount
  | SymbolMismatch
  | Overflow
  | Underflow
  | AlreadyExists
  | NotFound
  | Unauthorized
  | ExceedsMaxSupply
  | InsufficientBalance
  | SameAccount
  | MemoTooLong
  | BalanceNotZero
deriving DecidableEq

/-- Key of a balance row inside one contract instance: (owner, currency code). -/
abbrev AccKey := Nat × Nat

/-- The two tables of one deployed contract instance: the stat table keyed
by currency code and the accounts table keyed by (owner, currency code). -/
structure Chain where
  stats : List (Nat × currency_stats)
  accounts : List (AccKey × account)
deriving DecidableEq

def Chain.empty : Chain := ⟨[], []⟩

def lookupStat : List (Nat × currency_stats) → Nat → Option currency_stats
  | [], _ => none
  | (k, st) :: rest, c => if k = c then some st else lookupStat rest c

def modifyStat : List (Nat × currency_stats) → Nat → currency_stats →
    List (Nat × currency_stats)
  | [], _, _ => []
  | (k, st) :: rest, c, st' =>
      if k = c then (k, st') :: rest else (k, st) :: modifyStat rest c st'

def lookupAcc : List (AccKey × account) → Nat → Nat → Option account
  | [], _, _ => none
  | (k, a) :: rest, o, c => if k = (o, c) then some a else lookupAcc rest o c

def modifyAcc : List (AccKey × account) → Nat → Nat → account →
    List (AccKey × account)
  | [], _, _, _ => []
  | (k, a) :: rest, o, c, a' =>
      if k = (o, c) then (k, a') :: rest else (k, a) :: modifyAcc rest o c a'

def eraseAcc : List (AccKey × account) → Nat → Nat → List (AccKey × account)
  | [], _, _ => []
  | (k, a) :: rest, o, c => if k = (o, c) then rest else (k, a) :: eraseAcc rest o c

/-- Contribution of one balance row to the total for currency code c. -/
def contrib (a : account) (c : Nat) : Int :=
  if a.balance.symbol.code = c then a.balance.amount else 0

/-- Sum of balance.amount over all balance rows whose asset carries code c. -/
def sumBal : List (AccKey × account) → Nat → Int
  | [], _ => 0
  | (_, a) :: rest, c => contrib a c + sumBal rest c

/-- Modelled from the spec: internal debit (section 4.3); declared as
token::sub_balance in the header, body not in the repository snapshot.
Fails NotFound when no balance row exists, SymbolMismatch when the stored
symbol differs (arithmetic rule of section 4.1), InsufficientBalance when
the balance is too small; otherwise decrements the balance in place. -/
def sub_balance (owner : Nat) (value : asset) (ch : Chain) : Except Err Chain :=
  match lookupAcc ch.accounts owner value.symbol.code with
  | none => .error .NotFound
  | some a =>
      if a.balance.symbol ≠ value.symbol then .error .SymbolMismatch
      else if a.balance.amount < value.amount then .error .InsufficientBalance
      else .ok { ch with accounts := modifyAcc ch.accounts owner value.symbol.code ⟨⟨a.balance.amount - value.amount, a.balance.symbol⟩⟩ }

/-- Modelled from the spec: internal credit (section 4.3); declared as
token::add_balance in the header, body not in the repository snapshot.
Creates the row (storage charged to ram_payer) when absent, then adds the
value, failing with Overflow when the result leaves the valid range and
SymbolMismatch when the stored symbol differs (section 4.1). -/
def add_balance (owner : Nat) (value : asset) (ram_payer : Nat) (ch : Chain) :
    Except Err Chain :=
  match lookupAcc ch.accounts owner value.symbol.code with
  | none =>
      if maxAmount < value.amount then .error .Overflow
      else .ok { ch with accounts := ((owner, value.symbol.code), ⟨value⟩) :: ch.accounts }
  | some a =>
      if a.balance.symbol ≠ value.symbol then .error .SymbolMismatch
      else if maxAmount < a.balance.amount + value.amount then .error .Overflow
      else .ok { ch with accounts := modifyAcc ch.accounts owner value.symbol.code ⟨⟨a.balance.amount + value.amount, a.balance.symbol⟩⟩ }

/-- Modelled from the spec: token::create (section 4.2), body not in the
repository snapshot. Fails InvalidAmount unless 0 < max_supply.amount and
max_supply.amount is within the valid range, AlreadyExists when a supply
row for the code exists; otherwise inserts a supply row with supply 0. -/
def create (issuer : Nat) (maximum_supply : asset) (ch : Chain) : Except Err Chain :=
  if maximum_supply.amount ≤ 0 then .error .InvalidAmount
  else if maxAmount < maximum_supply.amount then .error .InvalidAmount
  else
    match lookupStat ch.stats maximum_supply.symbol.code with
    | some _ => .error .AlreadyExists
    | none => .ok { ch with stats := (maximum_supply.symbol.code, ⟨⟨0, maximum_supply.symbol⟩, maximum_supply, issuer⟩) :: ch.stats }

/-- Modelled from the spec: token::issue (section 4.2), body not in the
repository snapshot. The caller argument is the identity authorized by the
host. Fails NotFound without a supply row, Unauthorized unless the caller
is the issuer, InvalidAmount unless the quantity is positive and its
symbol (code and precision) matches the stored one, ExceedsMaxSupply when
the new supply would pass max_supply; otherwise increments the supply and
credits the quantity to the to account, storage charged to the issuer. -/
def issue (caller «to» : Nat) (quantity : asset) (memo : String) (ch : Chain) :
    Except Err Chain :=
  match lookupStat ch.stats quantity.symbol.code with
  | none => .error .NotFound
  | some st =>
      if caller ≠ st.issuer then .error .Unauthorized
      else if quantity.amount ≤ 0 then .error .InvalidAmount
      else if quantity.symbol ≠ st.supply.symbol then .error .InvalidAmount
      else if st.max_supply.amount < st.supply.amount + quantity.amount then
        .error .ExceedsMaxSupply
      else add_balance «to» quantity st.issuer { ch with stats := modifyStat ch.stats quantity.symbol.code { st with supply := ⟨st.supply.amount + quantity.amount, st.supply.symbol⟩ } }

/-- Modelled from the spec: token::retire (section 4.2), body not in the
repository snapshot. Fails NotFound without a supply row, Unauthorized
unless the caller is the issuer, InvalidAmount unless the quantity is
positive, SymbolMismatch when the quantity symbol differs from the stored
supply symbol (the subtraction rule of section 4.1); otherwise debits the
issuer balance and decrements the supply by the same amount. -/
def retire (caller : Nat) (quantity : asset) (memo : String) (ch : Chain) :
    Except Err Chain :=
  match lookupStat ch.stats quantity.symbol.code with
  | none => .error .NotFound
  | some st =>
      if caller ≠ st.issuer then .error .Unauthorized
      else if quantity.amount ≤ 0 then .error .InvalidAmount
      else if quantity.symbol ≠ st.supply.symbol then .error .SymbolMismatch
      else
        match sub_balance st.issuer quantity ch with
        | .error e => .error e
        | .ok ch' => .ok { ch' with stats := modifyStat ch'.stats quantity.symbol.code { st with supply := ⟨st.supply.amount - quantity.amount, st.supply.symbol⟩ } }

/-- Modelled from the spec: token::transfer (section 4.3), body not in the
repository snapshot. Fails InvalidAmount unless the quantity is positive,
SameAccount on a self transfer, Unauthorized unless the caller is the
from account, NotFound without a supply row, MemoTooLong past 256
characters; otherwise debits from and credits to (storage charged to
from). -/
def transfer (caller «from» «to» : Nat) (quantity : asset) (memo : String)
    (ch : Chain) : Except Err Chain :=
  if quantity.amount ≤ 0 then .error .InvalidAmount
  else if «from» = «to» then .error .SameAccount
  else if caller ≠ «from» then .error .Unauthorized
  else
    match lookupStat ch.stats quantity.symbol.code with
    | none => .error .NotFound
    | some _ =>
        if 256 < memo.length then .error .MemoTooLong
        else
          match sub_balance «from» quantity ch with
          | .error e => .error e
          | .ok ch' => add_balance «to» quantity «from» ch'

/-- Modelled from the spec: token::open (section 4.3), body not in the
repository snapshot. Fails NotFound when no supply record exists for the
symbol (in particular when the stored supply symbol differs from the
requested one); a no-op when the balance row already exists; otherwise
creates a zero-balance row, storage charged to ram_payer. -/
def «open» (owner : Nat) (sym : symbol) (ram_payer : Nat) (ch : Chain) :
    Except Err Chain :=
  match lookupStat ch.stats sym.code with
  | none => .error .NotFound
  | some st =>
      if st.supply.symbol ≠ sym then .error .NotFound
      else
        match lookupAcc ch.accounts owner sym.code with
        | some _ => .ok ch
        | none => .ok { ch with accounts := ((owner, sym.code), ⟨⟨0, sym⟩⟩) :: ch.accounts }

/-- Modelled from the spec: token::close (section 4.3), body not in the
repository snapshot (the header preconditions at lines 113-114 state the
same contract). A silent no-op when no balance row exists; fails
BalanceNotZero when the row exists with a nonzero balance; otherwise
deletes the row. -/
def close (owner : Nat) (sym : symbol) (ch : Chain) : Except Err Chain :=
  match lookupAcc ch.accounts owner sym.code with
  | none => .ok ch
  | some a =>
      if a.balance.amount ≠ 0 then .error .BalanceNotZero
      else .ok { ch with accounts := eraseAcc ch.accounts owner sym.code }

/-- One ledger operation together with its arguments; the caller fields
carry the identity authorized by the host. -/
inductive Op where
  | create (issuer : Nat) (maximum_supply : asset)
  | issue (caller «to» : Nat) (quantity : asset) (memo : String)
  | retire (caller : Nat) (quantity : asset) (memo : String)
  | transfer (caller «from» «to» : Nat) (quantity : asset) (memo : String)
  | «open» (owner : Nat) (sym : symbol) (ram_payer : Nat)
  | close (owner : Nat) (sym : symbol)
deriving DecidableEq

/-- Run one operation on the state of one contract instance. -/
def step : Op → Chain → Except Err Chain
  | .create i m, ch => create i m ch
  | .issue c t q memo, ch => issue c t q memo ch
  | .retire c q memo, ch => retire c q memo ch
  | .transfer c f t q memo, ch => transfer c f t q memo ch
  | .«open» o s p, ch => «open» o s p ch
  | .close o s, ch => close o s ch

/-- Host semantics: a failing operation aborts and its pending writes are
discarded, so the state is unchanged. -/
def exec (op : Op) (ch : Chain) : Chain :=
  match step op ch with
  | .ok ch' => ch'
  | .error _ => ch

/-- States reachable from the empty state by successful operations. -/
inductive Reachable : Chain → Prop where
  | init : Reachable Chain.empty
  | next {ch ch' : Chain} (op : Op) :
      Reachable ch → step op ch = .ok ch' → Reachable ch'

/-- Well-formedness of the accounts table: keys are pairwise distinct, the
currency-code part of every key is the primary key of its row (the code of
the stored asset), and balances are nonnegative. -/
def accWF (l : List (AccKey × account)) : Prop :=
  (l.map Prod.fst).Nodup ∧
  ∀ e ∈ l, e.1.2 = e.2.balance.symbol.code ∧ 0 ≤ e.2.balance.amount

/-- Well-formedness of the stat table: keys are pairwise distinct, every
key is the primary key of its row, supply and max_supply share a symbol,
and 0 ≤ supply.amount ≤ max_supply.amount with 0 < max_supply.amount ≤
maxAmount. -/
def statWF (l : List (Nat × currency_stats)) : Prop :=
  (l.map Prod.fst).Nodup ∧
  ∀ e ∈ l, e.1 = e.2.supply.symbol.code ∧
    e.2.supply.symbol = e.2.max_supply.symbol ∧
    0 ≤ e.2.supply.amount ∧
    e.2.supply.amount ≤ e.2.max_supply.amount ∧
    0 < e.2.max_supply.amount ∧
    e.2.max_supply.amount ≤ maxAmount

/-- The supply amount recorded for code c (0 when no supply row exists). -/
def supplyOf (l : List (Nat × currency_stats)) (c : Nat) : Int :=
  match lookupStat l c with
  | some st => st.supply.amount
  | none => 0

/-- Every balance row belongs to a created currency and carries exactly
the symbol (code and precision) of that currency's supply row. -/
def linked (ch : Chain) : Prop :=
  ∀ e ∈ ch.accounts, ∃ st, lookupStat ch.stats e.1.2 = some st ∧
    e.2.balance.symbol = st.supply.symbol

/-- The full state invariant: both tables well formed, balance rows linked
to supply rows, and for each code the balances sum to the supply. -/
def Inv (ch : Chain) : Prop :=
  accWF ch.accounts ∧ statWF ch.stats ∧ linked ch ∧
  ∀ c, sumBal ch.accounts c = supplyOf ch.stats c

/-- Address of a multi_index row in the host database:
(contract code, scope, primary key). -/
abbrev RowKey := Nat × Nat × Nat

/-- The host database holding the stat and accounts multi_index rows of
all contracts and scopes. -/
structure DB where
  statRows : List (RowKey × currency_stats)
  accountRows : List (RowKey × account)

def dbGetStat : List (RowKey × currency_stats) → Nat → Nat → Nat →
    Option currency_stats
  | [], _, _, _ => none
  | (k, st) :: rest, code, scope, pk =>
      if k = (code, scope, pk) then some st else dbGetStat rest code scope pk

def dbGetAcc : List (RowKey × account) → Nat → Nat → Nat → Option account
  | [], _, _, _ => none
  | (k, a) :: rest, code, scope, pk =>
      if k = (code, scope, pk) then some a else dbGetAcc rest code scope pk

/-- From the source (header lines 162-167): get_supply constructs the stat
table with code = token_contract_account and scope = sym_code.raw(), then
gets the row with primary key sym_code.raw() and returns its supply; the
multi_index get aborts (NotFound) when the row is absent. -/
def get_supply (db : DB) (token_contract_account sym_code : Nat) : Except Err asset :=
  match dbGetStat db.statRows token_contract_account sym_code sym_code with
  | some st => .ok st.supply
  | none => .error .NotFound

/-- From the source (header lines 179-184): get_balance constructs the
accounts table with code = token_contract_account and scope = owner.value,
then gets the row with primary key sym_code.raw() and returns its balance;
the multi_index get aborts (NotFound) when the row is absent. -/
def get_balance (db : DB) (token_contract_account owner sym_code : Nat) :
    Except Err asset :=
  match dbGetAcc db.accountRows token_contract_account owner sym_code with
  | some ac => .ok ac.balance
  | none => .error .NotFound

/-- Modelled from the spec: the read-only totalsupply action (declared at
header line 145, body not in the repository snapshot) reads the contract's
own supply row for the token's code, the same lookup as get_supply. -/
def totalsupply (db : DB) (self sym_code : Nat) : Except Err asset :=
  get_supply db self sym_code

/-- Modelled from the spec: the read-only balanceof action (declared at
header line 152, body not in the repository snapshot) reads the owner's
balance row for the token's code, the same lookup as get_balance. -/
def balanceof (db : DB) (self owner sym_code : Nat) : Except Err asset :=
  get_balance db self owner sym_code

/-- The Supply-table scoping exactly as claim C8 words it, for comparison
with the source definition: records keyed by currency code inside one
partition (scope) per deployed contract instance, so the lookup scope is
the contract account itself. -/
def get_supply_contract_scoped (db : DB) (token_contract_account sym_code : Nat) :
    Except Err asset :=
  match dbGetStat db.statRows token_contract_account token_contract_account sym_code with
  | some st => .ok st.supply
  | none => .error .NotFound

/-- The actions and read-only accessors declared by the contract class. -/
inductive action_name where
  | create
  | issue
  | retire
  | transfer
  | «open»
  | close
  | tokenname
  | tokensymbol
  | decimals
  | totalsupply
  | balanceof
  | hydraload
deriving DecidableEq

/-- From the source apply (header lines 228-233): when code equals
receiver, the hydra fixture hook handles the hydraload action (per the
header comments at lines 213-218 and 226-227) and the dispatch helper is
instantiated with exactly the list (create)(issue)(transfer); every other
action name falls through undispatched. -/
def apply (receiver code : Nat) (act : action_name) : Bool :=
  if code = receiver then
    match act with
    | .hydraload => true
    | .create => true
    | .issue => true
    | .transfer => true
    | _ => false
  else false

/-- Sample symbol with code 5 and precision 2. -/
def symTOK : symbol := ⟨5, 2⟩

/-- Stat row right after creating TOK with max supply 100. -/
def stTOK0 : currency_stats := ⟨⟨0, symTOK⟩, ⟨100, symTOK⟩, 1⟩

/-- Stat row after issuing 10 TOK. -/
def stTOK10 : currency_stats := ⟨⟨10, symTOK⟩, ⟨100, symTOK⟩, 1⟩

/-- State after create 1 (100 TOK) from the empty state. -/
def chain1 : Chain := ⟨[(5, stTOK0)], []⟩

/-- State after additionally issuing 10 TOK to account 1. -/
def chain2 : Chain := ⟨[(5, stTOK10)], [((1, 5), ⟨⟨10, symTOK⟩⟩)]⟩

/-- An (unreachable) state whose account 2 already holds the maximal
amount, used to exhibit a transfer whose debit succeeds but whose credit
overflows. -/
def chainBig : Chain :=
  ⟨[(5, stTOK10)], [((1, 5), ⟨⟨10, symTOK⟩⟩), ((2, 5), ⟨⟨maxAmount, symTOK⟩⟩)]⟩

/-- A state holding a zero balance for owner 3 next to a funded balance. -/
def chainC6 : Chain :=
  ⟨[(5, stTOK10)], [((3, 5), ⟨⟨0, symTOK⟩⟩), ((1, 5), ⟨⟨10, symTOK⟩⟩)]⟩

/-- A sample host database: one supply row for contract 1 (stored, as in
the source, at scope = currency code 5) and one balance row for owner 2. -/
def dbW : DB :=
  ⟨[((1, 5, 5), stTOK10)], [((1, 2, 5), ⟨⟨10, symTOK⟩⟩)]⟩

/-! Lemmas about the association-list operations backing the two tables. -/

theorem lookupAcc_mem {l : List (AccKey × account)} {o c : Nat} {a : account}
    (h : lookupAcc l o c = some a) : ((o, c), a) ∈ l := by
  induction l with
  | nil => simp [lookupAcc] at h
  | cons e rest ih =>
      obtain ⟨k, b⟩ := e
      by_cases hk : k = (o, c)
      · subst hk
        simp [lookupAcc] at h
        subst h
        exact List.mem_cons_self _ _
      · simp [lookupAcc, hk] at h
        exact List.mem_cons_of_mem _ (ih h)

theorem lookupAcc_eq_none {l : List (AccKey × account)} {o c : Nat}
    (h : (o, c) ∉ l.map Prod.fst) : lookupAcc l o c = none := by
  induction l with
  | nil => rfl
  | cons e rest ih =>
      obtain ⟨k, b⟩ := e
      rw [List.map_cons, List.mem_cons] at h
      push_neg at h
      have hk : k ≠ (o, c) := fun hh => h.1 hh.symm
      simp [lookupAcc, hk]
      exact ih h.2

theorem lookupAcc_none_forall {l : List (AccKey × account)} {o c : Nat}
    (h : lookupAcc l o c = none) : ∀ e ∈ l, e.1 ≠ (o, c) := by
  intro e he
  induction l with
  | nil => simp at he
  | cons e0 rest ih =>
      obtain ⟨k, b⟩ := e0
      by_cases hk : k = (o, c)
      · subst hk; simp [lookupAcc] at h
      · simp [lookupAcc, hk] at h
        rcases List.mem_cons.mp he with h1 | h1
        · subst h1; exact hk
        · exact ih h (by exact h1)

theorem lookupAcc_of_mem {l : List (AccKey × account)}
    (hnd : (l.map Prod.fst).Nodup) {o c : Nat} {a : account}
    (hm : ((o, c), a) ∈ l) : lookupAcc l o c = some a := by
  induction l with
  | nil => simp at hm
  | cons e rest ih =>
      obtain ⟨k, b⟩ := e
      rw [List.map_cons, List.nodup_cons] at hnd
      rcases List.mem_cons.mp hm with h1 | h1
      · have hk : k = (o, c) := (congrArg Prod.fst h1).symm
        have hb : b = a := (congrArg Prod.snd h1).symm
        subst hk
        simp [lookupAcc, hb]
      · by_cases hk : k = (o, c)
        · refine absurd ?_ hnd.1
          rw [hk]
          exact List.mem_map.mpr ⟨((o, c), a), h1, rfl⟩
        · simp [lookupAcc, hk]
          exact ih hnd.2 h1

theorem modifyAcc_map_fst (l : List (AccKey × account)) (o c : Nat) (a' : account) :
    (modifyAcc l o c a').map Prod.fst = l.map Prod.fst := by
  induction l with
  | nil => rfl
  | cons e rest ih =>
      obtain ⟨k, b⟩ := e
      by_cases hk : k = (o, c)
      · simp [modifyAcc, hk]
      · simp [modifyAcc, hk, ih]

theorem mem_modifyAcc {l : List (AccKey × account)} {o c : Nat} {a' : account}
    {e : AccKey × account} (he : e ∈ modifyAcc l o c a') : e ∈ l ∨ e = ((o, c), a') := by
  induction l with
  | nil => simp [modifyAcc] at he
  | cons e0 rest ih =>
      obtain ⟨k, b⟩ := e0
      by_cases hk : k = (o, c)
      · subst hk
        simp [modifyAcc] at he
        rcases he with h1 | h1
        · right; simp [h1]
        · left; exact List.mem_cons_of_mem _ h1
      · simp [modifyAcc, hk] at he
        rcases he with h1 | h1
        · left; simp [h1]
        · rcases ih h1 with h2 | h2
          · left; exact List.mem_cons_of_mem _ h2
          · right; exact h2

theorem lookupAcc_modifyAcc_self {l : List (AccKey × account)} {o c : Nat}
    {a a' : account} (h : lookupAcc l o c = some a) :
    lookupAcc (modifyAcc l o c a') o c = some a' := by
  induction l with
  | nil => simp [lookupAcc] at h
  | cons e rest ih =>
      obtain ⟨k, b⟩ := e
      by_cases hk : k = (o, c)
      · subst hk; simp [modifyAcc, lookupAcc]
      · simp [lookupAcc, hk] at h
        simp [modifyAcc, lookupAcc, hk]
        exact ih h

theorem lookupAcc_modifyAcc_ne {l : List (AccKey × account)} {o c : Nat}
    {a' : account} {o' c' : Nat} (hne : (o', c') ≠ (o, c)) :
    lookupAcc (modifyAcc l o c a') o' c' = lookupAcc l o' c' := by
  induction l with
  | nil => rfl
  | cons e rest ih =>
      obtain ⟨k, b⟩ := e
      by_cases hk : k = (o, c)
      · subst hk
        simp [modifyAcc, lookupAcc, Ne.symm hne]
      · by_cases hk' : k = (o', c')
        · subst hk'; simp [modifyAcc, lookupAcc, hk]
        · simp [modifyAcc, lookupAcc, hk, hk', ih]

theorem sumBal_modifyAcc {l : List (AccKey × account)} {o c : Nat} {a : account}
    (a' : account) (h : lookupAcc l o c = some a) (c' : Nat) :
    sumBal (modifyAcc l o c a') c' = sumBal l c' + contrib a' c' - contrib a c' := by
  induction l with
  | nil => simp [lookupAcc] at h
  | cons e rest ih =>
      obtain ⟨k, b⟩ := e
      by_cases hk : k = (o, c)
      · subst hk
        simp [lookupAcc] at h
        subst h
        simp [modifyAcc, sumBal] <;> ring
      · simp [lookupAcc, hk] at h
        simp [modifyAcc, sumBal, hk, ih h] <;> ring

theorem eraseAcc_sublist (l : List (AccKey × account)) (o c : Nat) :
    (eraseAcc l o c).Sublist l := by
  induction l with
  | nil => simp [eraseAcc]
  | cons e rest ih =>
      obtain ⟨k, b⟩ := e
      by_cases hk : k = (o, c)
      · simp [eraseAcc, hk]
      · simp [eraseAcc, hk]
        exact ih

theorem lookupAcc_eraseAcc_ne {o c o' c' : Nat} (hne : (o', c') ≠ (o, c))
    (l : List (AccKey × account)) :
    lookupAcc (eraseAcc l o c) o' c' = lookupAcc l o' c' := by
  induction l with
  | nil => rfl
  | cons e rest ih =>
      obtain ⟨k, b⟩ := e
      by_cases hk : k = (o, c)
      · subst hk
        simp [eraseAcc, lookupAcc, Ne.symm hne]
      · by_cases hk' : k = (o', c')
        · subst hk'; simp [eraseAcc, lookupAcc, hk]
        · simp [eraseAcc, lookupAcc, hk, hk', ih]

theorem lookupAcc_eraseAcc_self {l : List (AccKey × account)} {o c : Nat}
    (hnd : (l.map Prod.fst).Nodup) :
    lookupAcc (eraseAcc l o c) o c = none := by
  induction l with
  | nil => rfl
  | cons e rest ih =>
      obtain ⟨k, b⟩ := e
      rw [List.map_cons, List.nodup_cons] at hnd
      by_cases hk : k = (o, c)
      · subst hk
        simp [eraseAcc]
        exact lookupAcc_eq_none hnd.1
      · simp [eraseAcc, lookupAcc, hk]
        exact ih hnd.2

theorem sumBal_eraseAcc {l : List (AccKey × account)} {o c : Nat} {a : account}
    (h : lookupAcc l o c = some a) (c' : Nat) :
    sumBal (eraseAcc l o c) c' = sumBal l c' - contrib a c' := by
  induction l with
  | nil => simp [lookupAcc] at h
  | cons e rest ih =>
      obtain ⟨k, b⟩ := e
      by_cases hk : k = (o, c)
      · subst hk
        simp [lookupAcc] at h
        subst h
        simp [eraseAcc, sumBal]
      · simp [lookupAcc, hk] at h
        simp [eraseAcc, sumBal, hk, ih h] <;> ring

theorem contrib_nonneg {a : account} (h : 0 ≤ a.balance.amount) (c : Nat) :
    0 ≤ contrib a c := by
  unfold contrib
  split <;> simp [h]

theorem sumBal_nonneg {l : List (AccKey × account)} {c : Nat}
    (h : ∀ e ∈ l, 0 ≤ e.2.balance.amount) : 0 ≤ sumBal l c := by
  induction l with
  | nil => simp [sumBal]
  | cons e rest ih =>
      obtain ⟨k, b⟩ := e
      simp [sumBal]
      have h1 : 0 ≤ contrib b c := contrib_nonneg (h (k, b) (List.mem_cons_self _ _)) c
      have h2 : 0 ≤ sumBal rest c := ih fun e he => h e (List.mem_cons_of_mem _ he)
      linarith

theorem contrib_le_sumBal {l : List (AccKey × account)} {o c : Nat} {a : account}
    (h : lookupAcc l o c = some a)
    (hpos : ∀ e ∈ l, 0 ≤ e.2.balance.amount) (c' : Nat) :
    contrib a c' ≤ sumBal l c' := by
  induction l with
  | nil => simp [lookupAcc] at h
  | cons e rest ih =>
      obtain ⟨k, b⟩ := e
      by_cases hk : k = (o, c)
      · subst hk
        simp [lookupAcc] at h
        subst h
        simp [sumBal]
        exact sumBal_nonneg fun e he => hpos e (List.mem_cons_of_mem _ he)
      · simp [lookupAcc, hk] at h
        have h1 : 0 ≤ contrib b c' := contrib_nonneg (hpos (k, b) (List.mem_cons_self _ _)) c'
        have h2 := ih h fun e he => hpos e (List.mem_cons_of_mem _ he)
        simp [sumBal]
        linarith

theorem lookupStat_mem {l : List (Nat × currency_stats)} {c : Nat}
    {st : currency_stats} (h : lookupStat l c = some st) : (c, st) ∈ l := by
  induction l with
  | nil => simp [lookupStat] at h
  | cons e rest ih =>
      obtain ⟨k, b⟩ := e
      by_cases hk : k = c
      · subst hk
        simp [lookupStat] at h
        subst h
        exact List.mem_cons_self _ _
      · simp [lookupStat, hk] at h
        exact List.mem_cons_of_mem _ (ih h)

theorem lookupStat_eq_none {l : List (Nat × currency_stats)} {c : Nat}
    (h : c ∉ l.map Prod.fst) : lookupStat l c = none := by
  induction l with
  | nil => rfl
  | cons e rest ih =>
      obtain ⟨k, b⟩ := e
      rw [List.map_cons, List.mem_cons] at h
      push_neg at h
      have hk : k ≠ c := fun hh => h.1 hh.symm
      simp [lookupStat, hk]
      exact ih h.2

theorem lookupStat_none_forall {l : List (Nat × currency_stats)} {c : Nat}
    (h : lookupStat l c = none) : ∀ e ∈ l, e.1 ≠ c := by
  intro e he
  induction l with
  | nil => simp at he
  | cons e0 rest ih =>
      obtain ⟨k, b⟩ := e0
      by_cases hk : k = c
      · subst hk; simp [lookupStat] at h
      · simp [lookupStat, hk] at h
        rcases List.mem_cons.mp he with h1 | h1
        · subst h1; exact hk
        · exact ih h h1

theorem lookupStat_of_mem {l : List (Nat × currency_stats)}
    (hnd : (l.map Prod.fst).Nodup) {c : Nat} {st : currency_stats}
    (hm : (c, st) ∈ l) : lookupStat l c = some st := by
  induction l with
  | nil => simp at hm
  | cons e rest ih =>
      obtain ⟨k, b⟩ := e
      rw [List.map_cons, List.nodup_cons] at hnd
      rcases List.mem_cons.mp hm with h1 | h1
      · have hk : k = c := (congrArg Prod.fst h1).symm
        have hb : b = st := (congrArg Prod.snd h1).symm
        subst hk
        simp [lookupStat, hb]
      · by_cases hk : k = c
        · refine absurd ?_ hnd.1
          rw [hk]
          exact List.mem_map.mpr ⟨(c, st), h1, rfl⟩
        · simp [lookupStat, hk]
          exact ih hnd.2 h1

theorem modifyStat_map_fst (l : List (Nat × currency_stats)) (c : Nat)
    (st' : currency_stats) : (modifyStat l c st').map Prod.fst = l.map Prod.fst := by
  induction l with
  | nil => rfl
  | cons e rest ih =>
      obtain ⟨k, b⟩ := e
      by_cases hk : k = c
      · simp [modifyStat, hk]
      · simp [modifyStat, hk, ih]

theorem mem_modifyStat {l : List (Nat × currency_stats)} {c : Nat}
    {st' : currency_stats} {e : Nat × currency_stats}
    (he : e ∈ modifyStat l c st') : e ∈ l ∨ e = (c, st') := by
  induction l with
  | nil => simp [modifyStat] at he
  | cons e0 rest ih =>
      obtain ⟨k, b⟩ := e0
      by_cases hk : k = c
      · subst hk
        simp [modifyStat] at he
        rcases he with h1 | h1
        · right; simp [h1]
        · left; exact List.mem_cons_of_mem _ h1
      · simp [modifyStat, hk] at he
        rcases he with h1 | h1
        · left; simp [h1]
        · rcases ih h1 with h2 | h2
          · left; exact List.mem_cons_of_mem _ h2
          · right; exact h2

theorem lookupStat_modifyStat_self {l : List (Nat × currency_stats)} {c : Nat}
    {st st' : currency_stats} (h : lookupStat l c = some st) :
    lookupStat (modifyStat l c st') c = some st' := by
  induction l with
  | nil => simp [lookupStat] at h
  | cons e rest ih =>
      obtain ⟨k, b⟩ := e
      by_cases hk : k = c
      · subst hk; simp [modifyStat, lookupStat]
      · simp [lookupStat, hk] at h
        simp [modifyStat, lookupStat, hk]
        exact ih h

theorem lookupStat_modifyStat_ne {l : List (Nat × currency_stats)} {c : Nat}
    {st' : currency_stats} {c' : Nat} (hne : c' ≠ c) :
    lookupStat (modifyStat l c st') c' = lookupStat l c' := by
  induction l with
  | nil => rfl
  | cons e rest ih =>
      obtain ⟨k, b⟩ := e
      by_cases hk : k = c
      · subst hk
        simp [modifyStat, lookupStat, Ne.symm hne]
      · by_cases hk' : k = c'
        · subst hk'; simp [modifyStat, lookupStat, hk]
        · simp [modifyStat, lookupStat, hk, hk', ih]

theorem supplyOf_modifyStat {l : List (Nat × currency_stats)} {c : Nat}
    {st : currency_stats} (st' : currency_stats)
    (h : lookupStat l c = some st) (c' : Nat) :
    supplyOf (modifyStat l c st') c' =
      if c' = c then st'.supply.amount else supplyOf l c' := by
  by_cases hc : c' = c
  · subst hc
    simp [supplyOf, lookupStat_modifyStat_self h]
  · simp [supplyOf, lookupStat_modifyStat_ne hc, hc]

theorem supplyOf_cons (c : Nat) (st : currency_stats)
    (l : List (Nat × currency_stats)) (c' : Nat) :
    supplyOf ((c, st) :: l) c' =
      if c = c' then st.supply.amount else supplyOf l c' := by
  by_cases hc : c = c'
  · subst hc; simp [supplyOf, lookupStat]
  · simp [supplyOf, lookupStat, hc]

theorem not_mem_keys_of_lookupAcc_none {l : List (AccKey × account)} {o c : Nat}
    (h : lookupAcc l o c = none) : (o, c) ∉ l.map Prod.fst := by
  intro hmem
  rcases List.mem_map.mp hmem with ⟨e, he, hfst⟩
  exact lookupAcc_none_forall h e he hfst

theorem not_mem_keys_of_lookupStat_none {l : List (Nat × currency_stats)} {c : Nat}
    (h : lookupStat l c = none) : c ∉ l.map Prod.fst := by
  intro hmem
  rcases List.mem_map.mp hmem with ⟨e, he, hfst⟩
  exact lookupStat_none_forall h e he hfst

/-! Structural facts about the internal debit and credit. -/

theorem sub_balance_props {owner : Nat} {value : asset} {ch ch' : Chain}
    (h : sub_balance owner value ch = .ok ch') (hwf : accWF ch.accounts) :
    ch'.stats = ch.stats ∧ accWF ch'.accounts ∧
    (∀ c', sumBal ch'.accounts c' = sumBal ch.accounts c' - contrib ⟨value⟩ c') ∧
    (∀ e ∈ ch'.accounts, e ∈ ch.accounts ∨ e.2.balance.symbol = value.symbol) ∧
    (∃ a, lookupAcc ch.accounts owner value.symbol.code = some a ∧
      a.balance.symbol = value.symbol ∧ value.amount ≤ a.balance.amount) := by
  cases hl : lookupAcc ch.accounts owner value.symbol.code with
  | none => simp [sub_balance, hl] at h
  | some a =>
      simp only [sub_balance, hl] at h
      by_cases hs : a.balance.symbol = value.symbol
      · rw [if_neg (by simp [hs])] at h
        by_cases hamt : a.balance.amount < value.amount
        · rw [if_pos hamt] at h; exact absurd h (by simp)
        · rw [if_neg hamt] at h
          simp only [Except.ok.injEq] at h
          subst h
          refine ⟨rfl, ⟨?_, ?_⟩, ?_, ?_, ⟨a, rfl, hs, by linarith [not_lt.mp hamt]⟩⟩
          · rw [modifyAcc_map_fst]; exact hwf.1
          · intro e he
            rcases mem_modifyAcc he with h1 | h1
            · exact hwf.2 e h1
            · subst h1
              constructor
              · simp [hs]
              · simp
                linarith [not_lt.mp hamt]
          · intro c'
            rw [sumBal_modifyAcc _ hl c']
            have hcode : value.symbol.code = a.balance.symbol.code := by rw [hs]
            by_cases hcc : a.balance.symbol.code = c'
            · simp [contrib, hcc, hcode ▸ hcc]
              ring
            · have hvc : value.symbol.code ≠ c' := by rw [hcode]; exact hcc
              simp [contrib, hcc, hvc]
          · intro e he
            rcases mem_modifyAcc he with h1 | h1
            · exact Or.inl h1
            · subst h1; exact Or.inr hs
      · rw [if_pos (by simp [hs])] at h
        exact absurd h (by simp)

theorem add_balance_props {owner : Nat} {value : asset} {payer : Nat} {ch ch' : Chain}
    (h : add_balance owner value payer ch = .ok ch') (hv : 0 ≤ value.amount)
    (hwf : accWF ch.accounts) :
    ch'.stats = ch.stats ∧ accWF ch'.accounts ∧
    (∀ c', sumBal ch'.accounts c' = sumBal ch.accounts c' + contrib ⟨value⟩ c') ∧
    (∀ e ∈ ch'.accounts, e ∈ ch.accounts ∨ e.2.balance.symbol = value.symbol) := by
  cases hl : lookupAcc ch.accounts owner value.symbol.code with
  | none =>
      simp only [add_balance, hl] at h
      by_cases hov : maxAmount < value.amount
      · rw [if_pos hov] at h; exact absurd h (by simp)
      · rw [if_neg hov] at h
        simp only [Except.ok.injEq] at h
        subst h
        refine ⟨rfl, ⟨?_, ?_⟩, ?_, ?_⟩
        · rw [List.map_cons, List.nodup_cons]
          exact ⟨not_mem_keys_of_lookupAcc_none hl, hwf.1⟩
        · intro e he
          rcases List.mem_cons.mp he with h1 | h1
          · subst h1; exact ⟨rfl, hv⟩
          · exact hwf.2 e h1
        · intro c'
          simp [sumBal]
          ring
        · intro e he
          rcases List.mem_cons.mp he with h1 | h1
          · subst h1; exact Or.inr rfl
          · exact Or.inl h1
  | some a =>
      simp only [add_balance, hl] at h
      by_cases hs : a.balance.symbol = value.symbol
      · rw [if_neg (by simp [hs])] at h
        by_cases hov : maxAmount < a.balance.amount + value.amount
        · rw [if_pos hov] at h; exact absurd h (by simp)
        · rw [if_neg hov] at h
          simp only [Except.ok.injEq] at h
          subst h
          refine ⟨rfl, ⟨?_, ?_⟩, ?_, ?_⟩
          · rw [modifyAcc_map_fst]; exact hwf.1
          · intro e he
            rcases mem_modifyAcc he with h1 | h1
            · exact hwf.2 e h1
            · subst h1
              refine ⟨by simp [hs], ?_⟩
              simp
              have := (hwf.2 _ (lookupAcc_mem hl)).2
              simp at this
              linarith
          · intro c'
            rw [sumBal_modifyAcc _ hl c']
            have hcode : value.symbol.code = a.balance.symbol.code := by rw [hs]
            by_cases hcc : a.balance.symbol.code = c'
            · simp [contrib, hcc, hcode ▸ hcc]
              ring
            · have hvc : value.symbol.code ≠ c' := by rw [hcode]; exact hcc
              simp [contrib, hcc, hvc]
          · intro e he
            rcases mem_modifyAcc he with h1 | h1
            · exact Or.inl h1
            · subst h1; exact Or.inr hs
      · rw [if_pos (by simp [hs])] at h
        exact absurd h (by simp)

/-! Preservation of the state invariant by each ledger operation. -/

theorem Inv_empty : Inv Chain.empty := by
  refine ⟨⟨List.nodup_nil, ?_⟩, ⟨List.nodup_nil, ?_⟩, ?_, ?_⟩
  · intro e he; simp [Chain.empty] at he
  · intro e he; simp [Chain.empty] at he
  · intro e he; simp [Chain.empty] at he
  · intro c; simp [Chain.empty, sumBal, supplyOf, lookupStat]

theorem create_inv {i : Nat} {m : asset} {ch ch' : Chain}
    (h : create i m ch = .ok ch') (hInv : Inv ch) : Inv ch' := by
  obtain ⟨haw, hsw, hlink, hsum⟩ := hInv
  by_cases h1 : m.amount ≤ 0
  · simp [create, h1] at h
  · by_cases h2 : maxAmount < m.amount
    · simp [create, h1, h2] at h
    · cases hl : lookupStat ch.stats m.symbol.code with
      | some st => simp [create, h1, h2, hl] at h
      | none =>
          simp only [create, h1, h2, hl, if_false, Except.ok.injEq] at h
          subst h
          refine ⟨haw, ⟨?_, ?_⟩, ?_, ?_⟩
          · rw [List.map_cons, List.nodup_cons]
            exact ⟨not_mem_keys_of_lookupStat_none hl, hsw.1⟩
          · intro e he
            rcases List.mem_cons.mp he with h1' | h1'
            · subst h1'
              refine ⟨rfl, rfl, le_refl 0, by simpa using not_le.mp h1 |>.le, by simpa using not_le.mp h1, by simpa using not_lt.mp h2⟩
            · exact hsw.2 e h1'
          · intro e he
            obtain ⟨st, hls, hsymm⟩ := hlink e he
            have hne : m.symbol.code ≠ e.1.2 := by
              intro hh
              rw [← hh] at hls
              rw [hls] at hl
              cases hl
            refine ⟨st, ?_, hsymm⟩
            show lookupStat ((m.symbol.code, ⟨⟨0, m.symbol⟩, m, i⟩) :: ch.stats) e.1.2 = some st
            simp [lookupStat, hne]
            exact hls
          · intro c'
            show sumBal ch.accounts c' =
              supplyOf ((m.symbol.code, ⟨⟨0, m.symbol⟩, m, i⟩) :: ch.stats) c'
            rw [supplyOf_cons]
            by_cases hc : m.symbol.code = c'
            · rw [if_pos hc]
              have := hsum c'
              rw [← hc] at this
              rw [← hc]
              simpa [supplyOf, hl] using this
            · rw [if_neg hc]
              exact hsum c'

theorem issue_inv {caller t : Nat} {q : asset} {memo : String} {ch ch' : Chain}
    (h : issue caller t q memo ch = .ok ch') (hInv : Inv ch) : Inv ch' := by
  obtain ⟨haw, hsw, hlink, hsum⟩ := hInv
  cases hl : lookupStat ch.stats q.symbol.code with
  | none => simp [issue, hl] at h
  | some st =>
      simp only [issue, hl] at h
      by_cases hc1 : caller ≠ st.issuer
      · rw [if_pos hc1] at h; exact Except.noConfusion h
      rw [if_neg hc1] at h
      by_cases hc2 : q.amount ≤ 0
      · rw [if_pos hc2] at h; exact Except.noConfusion h
      rw [if_neg hc2] at h
      by_cases hc3 : q.symbol ≠ st.supply.symbol
      · rw [if_pos hc3] at h; exact Except.noConfusion h
      rw [if_neg hc3] at h
      push_neg at hc3
      by_cases hc4 : st.max_supply.amount < st.supply.amount + q.amount
      · rw [if_pos hc4] at h; exact Except.noConfusion h
      rw [if_neg hc4] at h
      obtain ⟨hk1, hk2, hk3, hk4, hk5, hk6⟩ := hsw.2 _ (lookupStat_mem hl)
      have hqpos : 0 < q.amount := not_le.mp hc2
      obtain ⟨hst', hwf', hsum', hmem'⟩ := add_balance_props h hqpos.le haw
      refine ⟨hwf', ?_, ?_, ?_⟩
      · rw [hst']
        constructor
        · rw [modifyStat_map_fst]; exact hsw.1
        · intro e he
          rcases mem_modifyStat he with h1 | h1
          · exact hsw.2 e h1
          · subst h1
            exact ⟨hk1, hk2, add_nonneg hk3 hqpos.le, not_lt.mp hc4, hk5, hk6⟩
      · intro e he
        rcases hmem' e he with h1 | h1
        · obtain ⟨stE, hlsE, hsymE⟩ := hlink e h1
          by_cases hec : e.1.2 = q.symbol.code
          · rw [hec] at hlsE
            have heq : stE = st := Option.some.inj (hl.symm.trans hlsE) |>.symm
            refine ⟨{ st with supply := ⟨st.supply.amount + q.amount, st.supply.symbol⟩ }, ?_, ?_⟩
            · rw [hst', hec]
              exact lookupStat_modifyStat_self hl
            · rw [hsymE, heq]
          · refine ⟨stE, ?_, hsymE⟩
            rw [hst', lookupStat_modifyStat_ne hec]
            exact hlsE
        · have hcode : e.1.2 = q.symbol.code := by rw [(hwf'.2 e he).1, h1]
          refine ⟨{ st with supply := ⟨st.supply.amount + q.amount, st.supply.symbol⟩ }, ?_, ?_⟩
          · rw [hst', hcode]
            exact lookupStat_modifyStat_self hl
          · rw [h1, hc3]
      · intro c'
        rw [hsum' c', hst', supplyOf_modifyStat _ hl c']
        by_cases hcq : c' = q.symbol.code
        · rw [if_pos hcq, hcq]
          have h0 := hsum q.symbol.code
          simp only [supplyOf, hl] at h0
          simp [contrib, h0]
        · rw [if_neg hcq]
          have hq' : q.symbol.code ≠ c' := fun hh => hcq hh.symm
          simp [contrib, hq']
          exact hsum c'

theorem retire_inv {caller : Nat} {q : asset} {memo : String} {ch ch' : Chain}
    (h : retire caller q memo ch = .ok ch') (hInv : Inv ch) : Inv ch' := by
  obtain ⟨haw, hsw, hlink, hsum⟩ := hInv
  cases hl : lookupStat ch.stats q.symbol.code with
  | none => simp [retire, hl] at h
  | some st =>
      simp only [retire, hl] at h
      by_cases hc1 : caller ≠ st.issuer
      · rw [if_pos hc1] at h; exact Except.noConfusion h
      rw [if_neg hc1] at h
      by_cases hc2 : q.amount ≤ 0
      · rw [if_pos hc2] at h; exact Except.noConfusion h
      rw [if_neg hc2] at h
      by_cases hc3 : q.symbol ≠ st.supply.symbol
      · rw [if_pos hc3] at h; exact Except.noConfusion h
      rw [if_neg hc3] at h
      push_neg at hc3
      cases hsb : sub_balance st.issuer q ch with
      | error e => rw [hsb] at h; exact Except.noConfusion h
      | ok chD =>
          rw [hsb] at h
          simp only [Except.ok.injEq] at h
          subst h
          obtain ⟨hk1, hk2, hk3, hk4, hk5, hk6⟩ := hsw.2 _ (lookupStat_mem hl)
          have hqpos : 0 < q.amount := not_le.mp hc2
          obtain ⟨hsD, hwfD, hsumD, hmemD, a, hla, hsa, hqa⟩ := sub_balance_props hsb haw
          have hacode : a.balance.symbol.code = q.symbol.code := by rw [hsa]
          have hbound : q.amount ≤ st.supply.amount := by
            have h1 := contrib_le_sumBal hla (fun e he => (haw.2 e he).2) q.symbol.code
            rw [contrib, if_pos hacode] at h1
            have h2 := hsum q.symbol.code
            simp only [supplyOf, hl] at h2
            linarith
          refine ⟨hwfD, ?_, ?_, ?_⟩
          · show statWF (modifyStat chD.stats q.symbol.code _)
            rw [hsD]
            constructor
            · rw [modifyStat_map_fst]; exact hsw.1
            · intro e he
              rcases mem_modifyStat he with h1 | h1
              · exact hsw.2 e h1
              · subst h1
                exact ⟨hk1, hk2, by simp; linarith, by simp; linarith, hk5, hk6⟩
          · intro e he
            have heD : e ∈ chD.accounts := he
            rcases hmemD e heD with h1 | h1
            · obtain ⟨stE, hlsE, hsymE⟩ := hlink e h1
              by_cases hec : e.1.2 = q.symbol.code
              · rw [hec] at hlsE
                have heq : stE = st := Option.some.inj (hl.symm.trans hlsE) |>.symm
                refine ⟨{ st with supply := ⟨st.supply.amount - q.amount, st.supply.symbol⟩ }, ?_, ?_⟩
                · show lookupStat (modifyStat chD.stats q.symbol.code _) e.1.2 = _
                  rw [hsD, hec]
                  exact lookupStat_modifyStat_self hl
                · rw [hsymE, heq]
              · refine ⟨stE, ?_, hsymE⟩
                show lookupStat (modifyStat chD.stats q.symbol.code _) e.1.2 = _
                rw [hsD, lookupStat_modifyStat_ne hec]
                exact hlsE
            · have hcode : e.1.2 = q.symbol.code := by rw [(hwfD.2 e heD).1, h1]
              refine ⟨{ st with supply := ⟨st.supply.amount - q.amount, st.supply.symbol⟩ }, ?_, ?_⟩
              · show lookupStat (modifyStat chD.stats q.symbol.code _) e.1.2 = _
                rw [hsD, hcode]
                exact lookupStat_modifyStat_self hl
              · rw [h1, hc3]
          · intro c'
            show sumBal chD.accounts c' = supplyOf (modifyStat chD.stats q.symbol.code _) c'
            rw [hsD, hsumD c', supplyOf_modifyStat _ hl c']
            by_cases hcq : c' = q.symbol.code
            · rw [if_pos hcq, hcq]
              have h0 := hsum q.symbol.code
              simp only [supplyOf, hl] at h0
              simp [contrib, h0]
            · rw [if_neg hcq]
              have hq' : q.symbol.code ≠ c' := fun hh => hcq hh.symm
              simp [contrib, hq']
              exact hsum c'

theorem transfer_inv {caller f t : Nat} {q : asset} {memo : String} {ch ch' : Chain}
    (h : transfer caller f t q memo ch = .ok ch') (hInv : Inv ch) : Inv ch' := by
  obtain ⟨haw, hsw, hlink, hsum⟩ := hInv
  by_cases hc1 : q.amount ≤ 0
  · simp [transfer, hc1] at h
  rw [transfer, if_neg hc1] at h
  by_cases hc2 : f = t
  · rw [if_pos hc2] at h; exact Except.noConfusion h
  rw [if_neg hc2] at h
  by_cases hc3 : caller ≠ f
  · rw [if_pos hc3] at h; exact Except.noConfusion h
  rw [if_neg hc3] at h
  cases hl : lookupStat ch.stats q.symbol.code with
  | none => rw [hl] at h; exact Except.noConfusion h
  | some st0 =>
      rw [hl] at h
      simp only at h
      by_cases hc4 : 256 < memo.length
      · rw [if_pos hc4] at h; exact Except.noConfusion h
      rw [if_neg hc4] at h
      cases hsb : sub_balance f q ch with
      | error e => rw [hsb] at h; exact Except.noConfusion h
      | ok chD =>
          rw [hsb] at h
          simp only at h
          have hqpos : 0 < q.amount := not_le.mp hc1
          obtain ⟨hsD, hwfD, hsumD, hmemD, a, hla, hsa, hqa⟩ := sub_balance_props hsb haw
          obtain ⟨hst', hwf', hsum', hmem'⟩ := add_balance_props h hqpos.le hwfD
          have hstats : ch'.stats = ch.stats := by rw [hst', hsD]
          have hlinkq : ∃ stE, lookupStat ch.stats q.symbol.code = some stE ∧
              q.symbol = stE.supply.symbol := by
            obtain ⟨stE, hlsE, hsymE⟩ := hlink _ (lookupAcc_mem hla)
            exact ⟨stE, hlsE, hsa ▸ hsymE⟩
          refine ⟨hwf', ?_, ?_, ?_⟩
          · rw [hstats]; exact hsw
          · intro e he
            rcases hmem' e he with h1 | h1
            · rcases hmemD e h1 with h2 | h2
              · obtain ⟨stE, hlsE, hsymE⟩ := hlink e h2
                refine ⟨stE, ?_, hsymE⟩
                rw [hstats]; exact hlsE
              · obtain ⟨stE, hlsE, hsymE⟩ := hlinkq
                have hcode : e.1.2 = q.symbol.code := by rw [(hwfD.2 e h1).1, h2]
                refine ⟨stE, ?_, ?_⟩
                · rw [hstats, hcode]; exact hlsE
                · rw [h2, hsymE]
            · obtain ⟨stE, hlsE, hsymE⟩ := hlinkq
              have hcode : e.1.2 = q.symbol.code := by rw [(hwf'.2 e he).1, h1]
              refine ⟨stE, ?_, ?_⟩
              · rw [hstats, hcode]; exact hlsE
              · rw [h1, hsymE]
          · intro c'
            rw [hsum' c', hsumD c', hstats]
            have := hsum c'
            linarith

theorem open_inv {o : Nat} {sym : symbol} {payer : Nat} {ch ch' : Chain}
    (h : «open» o sym payer ch = .ok ch') (hInv : Inv ch) : Inv ch' := by
  obtain ⟨haw, hsw, hlink, hsum⟩ := hInv
  cases hl : lookupStat ch.stats sym.code with
  | none => simp [«open», hl] at h
  | some st =>
      simp only [«open», hl] at h
      by_cases hs : st.supply.symbol ≠ sym
      · rw [if_pos hs] at h; exact Except.noConfusion h
      rw [if_neg hs] at h
      push_neg at hs
      cases hla : lookupAcc ch.accounts o sym.code with
      | some a =>
          rw [hla] at h
          simp only [Except.ok.injEq] at h
          subst h
          exact ⟨haw, hsw, hlink, hsum⟩
      | none =>
          rw [hla] at h
          simp only [Except.ok.injEq] at h
          subst h
          refine ⟨⟨?_, ?_⟩, hsw, ?_, ?_⟩
          · rw [List.map_cons, List.nodup_cons]
            exact ⟨not_mem_keys_of_lookupAcc_none hla, haw.1⟩
          · intro e he
            rcases List.mem_cons.mp he with h1 | h1
            · subst h1; exact ⟨rfl, le_refl 0⟩
            · exact haw.2 e h1
          · intro e he
            rcases List.mem_cons.mp he with h1 | h1
            · subst h1
              exact ⟨st, hl, hs.symm⟩
            · exact hlink e h1
          · intro c'
            show sumBal (((o, sym.code), ⟨⟨0, sym⟩⟩) :: ch.accounts) c' = supplyOf ch.stats c'
            rw [sumBal]
            have hz : contrib ⟨⟨0, sym⟩⟩ c' = 0 := by simp [contrib]
            rw [hz, zero_add]
            exact hsum c'

theorem close_inv {o : Nat} {sym : symbol} {ch ch' : Chain}
    (h : close o sym ch = .ok ch') (hInv : Inv ch) : Inv ch' := by
  obtain ⟨haw, hsw, hlink, hsum⟩ := hInv
  cases hla : lookupAcc ch.accounts o sym.code with
  | none =>
      simp only [close, hla, Except.ok.injEq] at h
      subst h
      exact ⟨haw, hsw, hlink, hsum⟩
  | some a =>
      simp only [close, hla] at h
      by_cases hz : a.balance.amount ≠ 0
      · rw [if_pos hz] at h; exact Except.noConfusion h
      rw [if_neg hz] at h
      push_neg at hz
      simp only [Except.ok.injEq] at h
      subst h
      refine ⟨⟨?_, ?_⟩, hsw, ?_, ?_⟩
      · exact ((eraseAcc_sublist ch.accounts o sym.code).map Prod.fst).nodup haw.1
      · intro e he
        exact haw.2 e ((eraseAcc_sublist ch.accounts o sym.code).subset he)
      · intro e he
        exact hlink e ((eraseAcc_sublist ch.accounts o sym.code).subset he)
      · intro c'
        show sumBal (eraseAcc ch.accounts o sym.code) c' = supplyOf ch.stats c'
        rw [sumBal_eraseAcc hla c']
        have hcz : contrib a c' = 0 := by simp [contrib, hz]
        rw [hcz, sub_zero]
        exact hsum c'

/-- Every successful operation preserves the state invariant. -/
theorem step_inv {op : Op} {ch ch' : Chain}
    (h : step op ch = .ok ch') (hInv : Inv ch) : Inv ch' := by
  cases op with
  | create i m =>
      have h' : create i m ch = .ok ch' := h
      exact create_inv h' hInv
  | issue c t q memo =>
      have h' : issue c t q memo ch = .ok ch' := h
      exact issue_inv h' hInv
  | retire c q memo =>
      have h' : retire c q memo ch = .ok ch' := h
      exact retire_inv h' hInv
  | transfer c f t q memo =>
      have h' : transfer c f t q memo ch = .ok ch' := h
      exact transfer_inv h' hInv
  | «open» o s p =>
      have h' : «open» o s p ch = .ok ch' := h
      exact open_inv h' hInv
  | close o s =>
      have h' : close o s ch = .ok ch' := h
      exact close_inv h' hInv

/-- Every reachable state satisfies the invariant. -/
theorem reachable_inv {ch : Chain} (h : Reachable ch) : Inv ch := by
  induction h with
  | init => exact Inv_empty
  | next op hr hs ih => exact step_inv hs ih

/-! The claims. -/

/-- Claim C1: for every sequence of successfully completed ledger
operations and every currency code with a supply row, the sum of
balance.amount over all balance rows carrying that code equals the supply
row's supply.amount after each successful operation. -/
theorem C1_balances_sum_to_supply {ch : Chain} (h : Reachable ch) (c : Nat)
    {st : currency_stats} (hst : lookupStat ch.stats c = some st) :
    sumBal ch.accounts c = st.supply.amount := by
  have hInv := reachable_inv h
  have hs := hInv.2.2.2 c
  simp only [supplyOf, hst] at hs
  exact hs

/-- Witness for C1 at the state reached by create then issue. -/
theorem C1_balances_sum_to_supply_witness :
    sumBal chain2.accounts 5 = (10 : Int) := by
  have h1 : Reachable chain1 :=
    Reachable.next (Op.create 1 ⟨100, symTOK⟩) Reachable.init rfl
  have h2 : Reachable chain2 :=
    Reachable.next (Op.issue 1 1 ⟨10, symTOK⟩ "") h1 rfl
  exact C1_balances_sum_to_supply h2 5
    (show lookupStat chain2.stats 5 = some stTOK10 from rfl)

/-- Claim C2: in every reachable state every supply row satisfies
0 ≤ supply.amount ≤ max_supply.amount, and since every successor of a
reachable state is reachable the bound is preserved by every operation. -/
theorem C2_supply_within_bounds {ch : Chain} (h : Reachable ch) {c : Nat}
    {st : currency_stats} (hst : lookupStat ch.stats c = some st) :
    0 ≤ st.supply.amount ∧ st.supply.amount ≤ st.max_supply.amount := by
  have hInv := reachable_inv h
  have hm := hInv.2.1.2 _ (lookupStat_mem hst)
  exact ⟨hm.2.2.1, hm.2.2.2.1⟩

/-- Witness for C2 at the state reached by create then issue. -/
theorem C2_supply_within_bounds_witness :
    0 ≤ stTOK10.supply.amount ∧
    stTOK10.supply.amount ≤ stTOK10.max_supply.amount := by
  have h1 : Reachable chain1 :=
    Reachable.next (Op.create 1 ⟨100, symTOK⟩) Reachable.init rfl
  have h2 : Reachable chain2 :=
    Reachable.next (Op.issue 1 1 ⟨10, symTOK⟩ "") h1 rfl
  exact C2_supply_within_bounds h2
    (show lookupStat chain2.stats 5 = some stTOK10 from rfl)

/-- Claim C3: whenever any precondition check of any ledger operation
fails, at whatever point during the operation, the operation aborts with
an error and the host semantics leaves both tables exactly as they were
before the operation began. -/
theorem C3_abort_keeps_state (op : Op) (ch : Chain) (e : Err)
    (h : step op ch = .error e) : exec op ch = ch := by
  unfold exec
  rw [h]

/-- Witness for C3: a transfer whose debit succeeds on its own but whose
credit overflows aborts as a whole and leaves the state unchanged. -/
theorem C3_abort_keeps_state_witness :
    sub_balance 1 ⟨5, symTOK⟩ chainBig =
      .ok ⟨[(5, stTOK10)], [((1, 5), ⟨⟨5, symTOK⟩⟩), ((2, 5), ⟨⟨maxAmount, symTOK⟩⟩)]⟩ ∧
    step (Op.transfer 1 1 2 ⟨5, symTOK⟩ "") chainBig = .error .Overflow ∧
    exec (Op.transfer 1 1 2 ⟨5, symTOK⟩ "") chainBig = chainBig :=
  ⟨rfl, rfl, C3_abort_keeps_state _ _ _ rfl⟩

/-- Claim C4 counterexample: the custom apply dispatcher has no dispatch
path for retire, open, close, nor for any of the read-only accessors,
refuting the claim that all six operations and all five queries are
exposed through apply. -/
theorem C4_dispatch_counterexample :
    apply 1 1 action_name.retire = false ∧
    apply 1 1 action_name.«open» = false ∧
    apply 1 1 action_name.close = false ∧
    apply 1 1 action_name.tokenname = false ∧
    apply 1 1 action_name.tokensymbol = false ∧
    apply 1 1 action_name.decimals = false ∧
    apply 1 1 action_name.totalsupply = false ∧
    apply 1 1 action_name.balanceof = false :=
  ⟨rfl, rfl, rfl, rfl, rfl, rfl, rfl, rfl⟩

/-- Claim C4 amended: apply dispatches an action exactly when code equals
receiver and the action is create, issue or transfer (or the hydra test
fixture action hydraload); retire, open, close and the read-only
accessors are declared by the contract but have no dispatch path. -/
theorem C4_dispatch_exactly_three (r c : Nat) (a : action_name) :
    apply r c a = true ↔
      (c = r ∧ (a = .create ∨ a = .issue ∨ a = .transfer ∨ a = .hydraload)) := by
  unfold apply
  by_cases hc : c = r
  · simp only [hc, if_pos rfl]
    cases a <;> simp
  · rw [if_neg hc]
    simp [hc]

/-- Claim C5: in any reachable state holding a supply row for the
quantity's symbol, an issue by the issuer of a positive quantity whose
symbol matches the stored one fails with ExceedsMaxSupply and leaves the
state unchanged when supply.amount + quantity.amount > max_supply.amount,
and otherwise succeeds, incrementing supply.amount by quantity.amount and
crediting quantity to the recipient's balance row. -/
theorem C5_issue_respects_max_supply {ch : Chain} (h : Reachable ch)
    («to» : Nat) (memo : String) {q : asset} {st : currency_stats}
    (hst : lookupStat ch.stats q.symbol.code = some st)
    (hq : 0 < q.amount) (hsym : q.symbol = st.supply.symbol) :
    (st.max_supply.amount < st.supply.amount + q.amount →
      issue st.issuer «to» q memo ch = .error .ExceedsMaxSupply ∧
      exec (.issue st.issuer «to» q memo) ch = ch) ∧
    (st.supply.amount + q.amount ≤ st.max_supply.amount →
      ∃ ch', issue st.issuer «to» q memo ch = .ok ch' ∧
        lookupStat ch'.stats q.symbol.code =
          some { st with supply := ⟨st.supply.amount + q.amount, st.supply.symbol⟩ } ∧
        lookupAcc ch'.accounts «to» q.symbol.code =
          some ⟨⟨(match lookupAcc ch.accounts «to» q.symbol.code with
                  | some a => a.balance.amount
                  | none => 0) + q.amount, q.symbol⟩⟩) := by
  obtain ⟨haw, hsw, hlink, hsum⟩ := reachable_inv h
  obtain ⟨hk1, hk2, hk3, hk4, hk5, hk6⟩ := hsw.2 _ (lookupStat_mem hst)
  constructor
  · intro hover
    have hiss : issue st.issuer «to» q memo ch = .error .ExceedsMaxSupply := by
      simp only [issue, hst]
      rw [if_neg (by simp), if_neg (not_le.mpr hq), if_neg (by simp [hsym]), if_pos hover]
    refine ⟨hiss, ?_⟩
    unfold exec
    have hstep : step (.issue st.issuer «to» q memo) ch = .error .ExceedsMaxSupply := hiss
    rw [hstep]
  · intro hle
    have hnover : ¬ st.max_supply.amount < st.supply.amount + q.amount := not_lt.mpr hle
    have hiss : issue st.issuer «to» q memo ch =
        add_balance «to» q st.issuer ⟨modifyStat ch.stats q.symbol.code
          { st with supply := ⟨st.supply.amount + q.amount, st.supply.symbol⟩ }, ch.accounts⟩ := by
      simp only [issue, hst]
      rw [if_neg (by simp), if_neg (not_le.mpr hq), if_neg (by simp [hsym]), if_neg hnover]
    have hsupq : sumBal ch.accounts q.symbol.code = st.supply.amount := by
      have h0 := hsum q.symbol.code
      simp only [supplyOf, hst] at h0
      exact h0
    cases hla : lookupAcc ch.accounts «to» q.symbol.code with
    | none =>
        have hqmax : ¬ maxAmount < q.amount := by
          apply not_lt.mpr
          calc q.amount ≤ st.supply.amount + q.amount := by linarith
            _ ≤ st.max_supply.amount := hle
            _ ≤ maxAmount := hk6
        refine ⟨⟨modifyStat ch.stats q.symbol.code
            { st with supply := ⟨st.supply.amount + q.amount, st.supply.symbol⟩ },
            ((«to», q.symbol.code), ⟨q⟩) :: ch.accounts⟩, ?_, ?_, ?_⟩
        · rw [hiss]
          have hla2 : lookupAcc (⟨modifyStat ch.stats q.symbol.code
              { st with supply := ⟨st.supply.amount + q.amount, st.supply.symbol⟩ },
              ch.accounts⟩ : Chain).accounts «to» q.symbol.code = none := hla
          simp only [add_balance, hla2]
          rw [if_neg hqmax]
        · exact lookupStat_modifyStat_self hst
        · simp [lookupAcc, hla]
    | some a =>
        obtain ⟨stE, hlsE, hsymE⟩ := hlink _ (lookupAcc_mem hla)
        have hstE : stE = st := Option.some.inj (hst.symm.trans hlsE) |>.symm
        have hsymq : a.balance.symbol = q.symbol := by
          rw [hsymE, hstE, ← hsym]
        have habound : a.balance.amount ≤ st.supply.amount := by
          have h1 := contrib_le_sumBal hla (fun e he => (haw.2 e he).2) q.symbol.code
          rw [contrib, if_pos (by rw [hsymq])] at h1
          linarith [hsupq ▸ h1]
        have hnov2 : ¬ maxAmount < a.balance.amount + q.amount := by
          apply not_lt.mpr
          calc a.balance.amount + q.amount ≤ st.supply.amount + q.amount := by linarith
            _ ≤ st.max_supply.amount := hle
            _ ≤ maxAmount := hk6
        refine ⟨⟨modifyStat ch.stats q.symbol.code
            { st with supply := ⟨st.supply.amount + q.amount, st.supply.symbol⟩ },
            modifyAcc ch.accounts «to» q.symbol.code
              ⟨⟨a.balance.amount + q.amount, a.balance.symbol⟩⟩⟩, ?_, ?_, ?_⟩
        · rw [hiss]
          have hla2 : lookupAcc (⟨modifyStat ch.stats q.symbol.code
              { st with supply := ⟨st.supply.amount + q.amount, st.supply.symbol⟩ },
              ch.accounts⟩ : Chain).accounts «to» q.symbol.code = some a := hla
          simp only [add_balance, hla2]
          rw [if_neg (by simp [hsymq]), if_neg hnov2]
        · exact lookupStat_modifyStat_self hst
        · have hres := @lookupAcc_modifyAcc_self ch.accounts «to» q.symbol.code a
            ⟨⟨a.balance.amount + q.amount, a.balance.symbol⟩⟩ hla
          rw [hres, hsymq]

/-- Witness for C5: with supply 10 and max supply 100, issuing 95 more
fails with ExceedsMaxSupply and changes nothing. -/
theorem C5_issue_respects_max_supply_witness :
    issue 1 1 ⟨95, symTOK⟩ "" chain2 = .error .ExceedsMaxSupply ∧
    exec (.issue 1 1 ⟨95, symTOK⟩ "") chain2 = chain2 := by
  have h1 : Reachable chain1 :=
    Reachable.next (Op.create 1 ⟨100, symTOK⟩) Reachable.init rfl
  have h2 : Reachable chain2 :=
    Reachable.next (Op.issue 1 1 ⟨10, symTOK⟩ "") h1 rfl
  exact (@C5_issue_respects_max_supply chain2 h2 1 "" ⟨95, symTOK⟩ stTOK10
    rfl (by decide) rfl).1 (by decide)

/-- Claim C6: close is a silent no-op when no balance row exists for
(owner, symbol.code); it fails with BalanceNotZero leaving the state
unchanged when the row exists with a nonzero balance; and it deletes
exactly that row (all other rows untouched) when the balance is zero. -/
theorem C6_close_behaviour (ch : Chain) (owner : Nat) (sym : symbol)
    (hnd : (ch.accounts.map Prod.fst).Nodup) :
    (lookupAcc ch.accounts owner sym.code = none → close owner sym ch = .ok ch) ∧
    (∀ a, lookupAcc ch.accounts owner sym.code = some a → a.balance.amount ≠ 0 →
      close owner sym ch = .error .BalanceNotZero ∧ exec (.close owner sym) ch = ch) ∧
    (∀ a, lookupAcc ch.accounts owner sym.code = some a → a.balance.amount = 0 →
      ∃ ch', close owner sym ch = .ok ch' ∧ ch'.stats = ch.stats ∧
        lookupAcc ch'.accounts owner sym.code = none ∧
        ∀ o' c', (o', c') ≠ (owner, sym.code) →
          lookupAcc ch'.accounts o' c' = lookupAcc ch.accounts o' c') := by
  refine ⟨?_, ?_, ?_⟩
  · intro hla
    simp [close, hla]
  · intro a hla hz
    have hcl : close owner sym ch = .error .BalanceNotZero := by
      simp only [close, hla]
      rw [if_pos hz]
    refine ⟨hcl, ?_⟩
    unfold exec
    have hstep : step (.close owner sym) ch = .error .BalanceNotZero := hcl
    rw [hstep]
  · intro a hla hz
    refine ⟨⟨ch.stats, eraseAcc ch.accounts owner sym.code⟩, ?_, rfl, ?_, ?_⟩
    · simp only [close, hla]
      rw [if_neg (by simp [hz])]
    · exact lookupAcc_eraseAcc_self hnd
    · intro o' c' hne
      exact lookupAcc_eraseAcc_ne hne ch.accounts

/-- Witness for C6: closing the zero balance of owner 3 deletes exactly
that row. -/
theorem C6_close_behaviour_witness :
    ∃ ch', close 3 symTOK chainC6 = .ok ch' ∧ ch'.stats = chainC6.stats ∧
      lookupAcc ch'.accounts 3 symTOK.code = none ∧
      ∀ o' c', (o', c') ≠ (3, symTOK.code) →
        lookupAcc ch'.accounts o' c' = lookupAcc chainC6.accounts o' c' :=
  (C6_close_behaviour chainC6 3 symTOK (by decide)).2.2 ⟨⟨0, symTOK⟩⟩ rfl rfl

/-- Claim C7: each query accessor returns the value stored in the backing
row when it exists (get_supply and totalsupply return the stored supply,
get_balance and balanceof the stored balance) and fails with NotFound
when the backing row does not exist. -/
theorem C7_query_accessors (db : DB) (tca o sc : Nat) :
    (∀ st, dbGetStat db.statRows tca sc sc = some st →
      get_supply db tca sc = .ok st.supply ∧ totalsupply db tca sc = .ok st.supply) ∧
    (dbGetStat db.statRows tca sc sc = none →
      get_supply db tca sc = .error .NotFound ∧
      totalsupply db tca sc = .error .NotFound) ∧
    (∀ ac, dbGetAcc db.accountRows tca o sc = some ac →
      get_balance db tca o sc = .ok ac.balance ∧
      balanceof db tca o sc = .ok ac.balance) ∧
    (dbGetAcc db.accountRows tca o sc = none →
      get_balance db tca o sc = .error .NotFound ∧
      balanceof db tca o sc = .error .NotFound) := by
  refine ⟨?_, ?_, ?_, ?_⟩
  · intro st hrow
    constructor <;> simp [get_supply, totalsupply, hrow]
  · intro hrow
    constructor <;> simp [get_supply, totalsupply, hrow]
  · intro ac hrow
    constructor <;> simp [get_balance, balanceof, hrow]
  · intro hrow
    constructor <;> simp [get_balance, balanceof, hrow]

/-- Witness for C7: in the sample database the supply row for code 5 is
returned and the balance query for the absent owner 7 fails NotFound. -/
theorem C7_query_accessors_witness :
    (get_supply dbW 1 5 = .ok stTOK10.supply ∧
     totalsupply dbW 1 5 = .ok stTOK10.supply) ∧
    (get_balance dbW 1 7 5 = .error .NotFound ∧
     balanceof dbW 1 7 5 = .error .NotFound) :=
  ⟨(C7_query_accessors dbW 1 7 5).1 stTOK10 rfl,
   (C7_query_accessors dbW 1 7 5).2.2.2 rfl⟩

/-- Claim C8 counterexample: a supply row stored in one partition per
deployed contract instance (scope = the contract account), exactly as the
claim's layout prescribes, is not found by the source get_supply, which
reads the stat table at scope = the currency code; the claim's scoping
and the code's scoping disagree on the Supply table. -/
theorem C8_supply_scope_counterexample :
    get_supply_contract_scoped ⟨[((1, 1, 5), stTOK10)], []⟩ 1 5 = .ok stTOK10.supply ∧
    get_supply ⟨[((1, 1, 5), stTOK10)], []⟩ 1 5 = .error .NotFound ∧
    get_supply ⟨[((1, 5, 5), stTOK10)], []⟩ 1 5 = .ok stTOK10.supply :=
  ⟨rfl, rfl, rfl⟩

/-- Claim C8 amended: a stored supply row is retrieved by get_supply
exactly when its address has code = the deployed contract account,
scope = the queried currency code itself (one partition per currency
code, not one per contract instance) and primary key = the currency code;
a stored balance row is retrieved by get_balance exactly when its address
has code = the contract account, scope = the owner account and primary
key = the currency code. -/
theorem C8_table_scoping (code scope pk tca o sc : Nat)
    (st : currency_stats) (ac : account) :
    (get_supply ⟨[((code, scope, pk), st)], []⟩ tca sc = .ok st.supply ↔
      (code = tca ∧ scope = sc ∧ pk = sc)) ∧
    (get_balance ⟨[], [((code, scope, pk), ac)]⟩ tca o sc = .ok ac.balance ↔
      (code = tca ∧ scope = o ∧ pk = sc)) := by
  constructor
  · simp only [get_supply, dbGetStat]
    by_cases hk : (code, scope, pk) = (tca, sc, sc)
    · rw [if_pos hk]
      have h1 : code = tca := congrArg (fun p : RowKey => p.1) hk
      have h2 : scope = sc := congrArg (fun p : RowKey => p.2.1) hk
      have h3 : pk = sc := congrArg (fun p : RowKey => p.2.2) hk
      simp [h1, h2, h3]
    · rw [if_neg hk]
      constructor
      · intro hg
        have hg' : (Except.error Err.NotFound : Except Err asset) = .ok st.supply := hg
        exact Except.noConfusion hg'
      · rintro ⟨h1, h2, h3⟩
        subst h1; subst h2; subst h3
        exact absurd rfl hk
  · simp only [get_balance, dbGetAcc]
    by_cases hk : (code, scope, pk) = (tca, o, sc)
    · rw [if_pos hk]
      have h1 : code = tca := congrArg (fun p : RowKey => p.1) hk
      have h2 : scope = o := congrArg (fun p : RowKey => p.2.1) hk
      have h3 : pk = sc := congrArg (fun p : RowKey => p.2.2) hk
      simp [h1, h2, h3]
    · rw [if_neg hk]
      constructor
      · intro hg
        have hg' : (Except.error Err.NotFound : Except Err asset) = .ok ac.balance := hg
        exact Except.noConfusion hg'
      · rintro ⟨h1, h2, h3⟩
        subst h1; subst h2; subst h3
        exact absurd rfl hk

/-- Claim C9: in a state with a supply row for the symbol and no balance
row for (owner, symbol.code), open then close with no intervening credit
returns the Balances table exactly to its prior state. -/
theorem C9_open_close_roundtrip {ch : Chain} {owner : Nat} {sym : symbol}
    (ram_payer : Nat) {st : currency_stats}
    (hst : lookupStat ch.stats sym.code = some st)
    (hsym : st.supply.symbol = sym)
    (hla : lookupAcc ch.accounts owner sym.code = none) :
    ∃ ch1 ch2, «open» owner sym ram_payer ch = .ok ch1 ∧
      close owner sym ch1 = .ok ch2 ∧
      ch2.accounts = ch.accounts ∧ ch2.stats = ch.stats := by
  refine ⟨⟨ch.stats, ((owner, sym.code), ⟨⟨0, sym⟩⟩) :: ch.accounts⟩,
    ⟨ch.stats, ch.accounts⟩, ?_, ?_, rfl, rfl⟩
  · simp only [«open», hst]
    rw [if_neg (by simp [hsym])]
    simp only [hla]
  · simp [close, lookupAcc, eraseAcc]

/-- Witness for C9 at the state reached by create then issue, opening and
closing a row for the fresh owner 3. -/
theorem C9_open_close_roundtrip_witness :
    ∃ ch1 ch2, «open» 3 symTOK 1 chain2 = .ok ch1 ∧ close 3 symTOK ch1 = .ok ch2 ∧
      ch2.accounts = chain2.accounts ∧ ch2.stats = chain2.stats :=
  C9_open_close_roundtrip 1
    (show lookupStat chain2.stats symTOK.code = some stTOK10 from rfl) rfl rfl

/-- Claim C10: in both tables the primary key is the symbol code stored in
the row itself; in every reachable state every key equals its row's
primary key, keys are unique per scope (at most one row per currency code
in the stat table and per (owner, code) in the accounts table), and a row
is retrievable by a symbol code exactly when its stored asset carries
that code. -/
theorem C10_primary_key_invariant {ch : Chain} (h : Reachable ch) :
    (∀ a : account, account.primary_key a = a.balance.symbol.code) ∧
    (∀ st : currency_stats, currency_stats.primary_key st = st.supply.symbol.code) ∧
    (ch.accounts.map Prod.fst).Nodup ∧
    (ch.stats.map Prod.fst).Nodup ∧
    (∀ e ∈ ch.accounts, e.1.2 = account.primary_key e.2) ∧
    (∀ e ∈ ch.stats, e.1 = currency_stats.primary_key e.2) ∧
    (∀ o c a, lookupAcc ch.accounts o c = some a → a.balance.symbol.code = c) ∧
    (∀ c st, lookupStat ch.stats c = some st → st.supply.symbol.code = c) ∧
    (∀ e ∈ ch.accounts, lookupAcc ch.accounts e.1.1 e.1.2 = some e.2) ∧
    (∀ e ∈ ch.stats, lookupStat ch.stats e.1 = some e.2) := by
  obtain ⟨haw, hsw, hlink, hsum⟩ := reachable_inv h
  refine ⟨fun a => rfl, fun st => rfl, haw.1, hsw.1, ?_, ?_, ?_, ?_, ?_, ?_⟩
  · exact fun e he => (haw.2 e he).1
  · exact fun e he => (hsw.2 e he).1
  · intro o c a hla
    exact ((haw.2 _ (lookupAcc_mem hla)).1).symm
  · intro c st hls
    exact ((hsw.2 _ (lookupStat_mem hls)).1).symm
  · exact fun e he => lookupAcc_of_mem haw.1 he
  · exact fun e he => lookupStat_of_mem hsw.1 he

/-- Witness for C10 at the state reached by create then issue. -/
theorem C10_primary_key_invariant_witness :
    lookupAcc chain2.accounts 1 5 = some ⟨⟨10, symTOK⟩⟩ ∧
    account.primary_key ⟨⟨10, symTOK⟩⟩ = 5 := by
  have h1 : Reachable chain1 :=
    Reachable.next (Op.create 1 ⟨100, symTOK⟩) Reachable.init rfl
  have h2 : Reachable chain2 :=
    Reachable.next (Op.issue 1 1 ⟨10, symTOK⟩ "") h1 rfl
  have H := C10_primary_key_invariant h2
  exact ⟨H.2.2.2.2.2.2.2.2.1 ((1, 5), ⟨⟨10, symTOK⟩⟩) (by simp [chain2]), rfl⟩

end ApocToken
